import Mathlib

/-!
Verification development for the OpenTTD non-blocking TCP connection engine
(`src/src/network/core/tcp.h`).  The repository ships only the header; the
behaviour of the member functions is therefore modelled from the accompanying
design specification (spec.md), faithful to its words, while the types,
enumerators and inline member bodies are embedded from the header itself.

Packets are modelled as lists of bytes (natural numbers), sockets as natural
identifiers, and the transport as an explicit oracle of per-call results, so
that every definition is executable.
-/

set_option maxHeartbeats 1000000

namespace OpenTTDNet

/-! ## Packet wire format -/

/-- Modelled from the spec: "each packet begins with a fixed-width length
prefix followed by its payload" (spec.md section 6, Packet wire contract).  The
prefix is two bytes, little endian, and counts the whole packet including the
prefix itself, so a packet with `n` payload bytes occupies `n + 2` bytes on the
wire. -/
def encodePacket (payload : List Nat) : List Nat :=
  ((payload.length + 2) % 256) :: ((payload.length + 2) / 256 % 256) :: payload

/-- The length declared by the two-byte header of an assembly buffer, when the
header has been fully received. -/
def declaredLen : List Nat → Option Nat
  | b0 :: b1 :: _ => some (b0 + 256 * b1)
  | _ => none

/-- Whether the assembly buffer holds a complete packet: the declared length of
its header has been satisfied. -/
def packetComplete (buf : List Nat) : Bool :=
  match declaredLen buf with
  | some d => buf.length == d
  | none => false

/-- A packet is well formed when its total wire size fits the two-byte length
field. -/
def wfPacket (payload : List Nat) : Prop :=
  payload.length + 2 < 65536

/-! ## Socket handler state

Embedded from `NetworkTCPSocketHandler` in tcp.h: the outbound
`packet_queue`, the partially received `packet_recv`, the socket (here a
`connected` flag standing for `sock != INVALID_SOCKET`) and `writable`.
`sent_head` records how many bytes of the front packet the transport has
already accepted (in the source this cursor lives inside the front `Packet`
object). -/

structure NetworkTCPSocketHandler where
  connected : Bool := true
  writable : Bool := false
  packet_queue : List (List Nat) := []
  sent_head : Nat := 0
  packet_recv : List Nat := []
deriving DecidableEq, Repr

/-- Embedded from tcp.h: the states of sending the packets
(`SendPacketsState`). -/
inductive SendPacketsState
  | SPS_CLOSED
  | SPS_NONE_SENT
  | SPS_PARTLY_SENT
  | SPS_ALL_SENT
deriving DecidableEq, Repr

/-- The result of one underlying transport send call: it accepts some number
of bytes, accepts nothing for now, or fails. -/
inductive SendResult
  | accepted (n : Nat)
  | wouldBlock
  | error
deriving DecidableEq, Repr

/-- The bytes still awaiting delivery: the front packet beyond the accepted
cursor, followed by the remaining packets whole. -/
def headPending : List (List Nat) → Nat → List Nat
  | [], _ => []
  | p :: rest, sh => p.drop sh ++ rest.flatten

/-- Drop fully delivered packets from the front of the queue (the cursor only
ever refers to the front packet). -/
def normQ : List (List Nat) → Nat → List (List Nat) × Nat
  | [], _ => ([], 0)
  | p :: rest, sh => if p.length ≤ sh then normQ rest 0 else (p :: rest, sh)

/-- Modelled from the spec: the flush loop of `FlushSend` / `SendPackets`
(spec.md section 4.2): "attempts to write as many fully-queued packets as the
transport will currently accept, in FIFO order, splitting partially-accepted
packets across calls".  Each oracle entry answers one underlying send call.
Returns the remaining queue, the new cursor into its front packet, whether a
transport error occurred, and the bytes handed to the transport. -/
def sendLoop (queue : List (List Nat)) (sh : Nat) :
    List SendResult → List (List Nat) × Nat × Bool × List Nat
  | [] => ((normQ queue sh).1, (normQ queue sh).2, false, [])
  | SendResult.error :: _ =>
    ((normQ queue sh).1, (normQ queue sh).2, !(normQ queue sh).1.isEmpty, [])
  | SendResult.wouldBlock :: _ =>
    ((normQ queue sh).1, (normQ queue sh).2, false, [])
  | SendResult.accepted n :: os =>
    match normQ queue sh with
    | ([], _) => ([], 0, false, [])
    | (p :: rest, sh2) =>
      let remaining := p.drop sh2
      if remaining.length ≤ n then
        let r := sendLoop rest 0 os
        (r.1, r.2.1, r.2.2.1, remaining ++ r.2.2.2)
      else
        (p :: rest, sh2 + n, false, remaining.take n)

namespace NetworkTCPSocketHandler

/-- Modelled from the spec: `EmptyPacketQueue` discards the queued but unsent
packets (spec.md section 3, Socket Handler invariant: "closing the handler
discards any queued but unsent packets without signaling a partial-delivery
error"). -/
def EmptyPacketQueue (h : NetworkTCPSocketHandler) : NetworkTCPSocketHandler :=
  { h with packet_queue := [], sent_head := 0 }

/-- Modelled from the spec: "Close: releases the socket, discards the queue,
and is idempotent" (spec.md section 4.2). -/
def CloseSocket (h : NetworkTCPSocketHandler) : NetworkTCPSocketHandler :=
  { h.EmptyPacketQueue with connected := false, writable := false }

/-- Modelled from the spec: "Enqueue(packet): appends to the outbound queue;
never blocks; always succeeds unless the handler is already closed, in which
case it is a no-op (silently dropped)" (spec.md section 4.2). -/
def SendPacket (h : NetworkTCPSocketHandler) (p : List Nat) : NetworkTCPSocketHandler :=
  if h.connected then { h with packet_queue := h.packet_queue ++ [p] } else h

/-- Modelled from the spec: `FlushSend` / `SendPackets` (spec.md sections 4.2
and 7).  A closed handler reports `SPS_CLOSED`; a transport error closes the
handler and reports `SPS_CLOSED`; otherwise the result reflects the queue
state after the attempt, per the enumerator comments in tcp.h.  Also returns
the bytes handed to the transport during this call. -/
def SendPackets (h : NetworkTCPSocketHandler) (oracle : List SendResult) :
    NetworkTCPSocketHandler × SendPacketsState × List Nat :=
  if h.connected then
    let r := sendLoop h.packet_queue h.sent_head oracle
    if r.2.2.1 then (h.CloseSocket, SendPacketsState.SPS_CLOSED, r.2.2.2)
    else
      let h2 := { h with packet_queue := r.1, sent_head := r.2.1 }
      if r.1.isEmpty then (h2, SendPacketsState.SPS_ALL_SENT, r.2.2.2)
      else if r.2.2.2.isEmpty then (h2, SendPacketsState.SPS_NONE_SENT, r.2.2.2)
      else (h2, SendPacketsState.SPS_PARTLY_SENT, r.2.2.2)
  else (h, SendPacketsState.SPS_CLOSED, [])

end NetworkTCPSocketHandler

/-- What the transport offers to one `ReceivePacket` call: a transport error,
or the bytes currently available to read. -/
inductive RecvInput
  | error
  | avail (bytes : List Nat)
deriving DecidableEq, Repr

/-- The outcome of one `ReceivePacket` call: a closed-connection signal, no
complete packet yet (the null return), or one complete packet. -/
inductive RecvOutcome
  | closedSig
  | nothingYet
  | packet (p : List Nat)
deriving DecidableEq, Repr

/-- Modelled from the spec: the assembly step of `Receive()` (spec.md section
4.2): bytes are read into the single in-progress inbound buffer until the
declared length of its header is satisfied; then the complete packet is
returned together with the unread remainder of the available bytes. -/
def recvConsume : List Nat → List Nat → List Nat × List Nat × Option (List Nat)
  | buf, chunk =>
    if packetComplete buf then ([], chunk, some buf)
    else
      match chunk with
      | [] => (buf, [], none)
      | b :: rest => recvConsume (buf ++ [b]) rest

namespace NetworkTCPSocketHandler

/-- Modelled from the spec: `Receive()` / `ReceivePacket` (spec.md sections
4.2 and 7): reads available bytes into the in-progress buffer; once a complete
packet's declared length is satisfied that packet is handed to the application
and a new empty assembly buffer begins; returns null when no complete packet is
yet available; a transport error closes the handler and surfaces a single
closed-connection signal.  Also returns the bytes left unread. -/
def ReceivePacket (h : NetworkTCPSocketHandler) (input : RecvInput) :
    NetworkTCPSocketHandler × List Nat × RecvOutcome :=
  if h.connected then
    match input with
    | RecvInput.error => (h.CloseSocket, [], RecvOutcome.closedSig)
    | RecvInput.avail bytes =>
      let r := recvConsume h.packet_recv bytes
      match r.2.2 with
      | some p => ({ h with packet_recv := [] }, r.2.1, RecvOutcome.packet p)
      | none => ({ h with packet_recv := r.1 }, r.2.1, RecvOutcome.nothingYet)
  else (h, [], RecvOutcome.nothingYet)

end NetworkTCPSocketHandler

/-- The per-tick receive pump: call `ReceivePacket` on the available bytes
repeatedly until it reports that no further complete packet is available.
`fuel` bounds the number of calls; `avail.length + 1` always suffices. -/
def pumpAvail (h : NetworkTCPSocketHandler) :
    Nat → List Nat → NetworkTCPSocketHandler × List Nat × List (List Nat)
  | 0, avail => (h, avail, [])
  | fuel + 1, avail =>
    let r := h.ReceivePacket (RecvInput.avail avail)
    match r.2.2 with
    | RecvOutcome.packet p =>
      let r2 := pumpAvail r.1 fuel r.2.1
      (r2.1, r2.2.1, p :: r2.2.2)
    | _ => (r.1, r.2.1, [])

/-- Feed a sequence of transport deliveries (chunks) to the handler, pumping
each chunk to exhaustion, and collect every packet handed to the application
across all calls. -/
def pumpChunks (h : NetworkTCPSocketHandler) :
    List (List Nat) → NetworkTCPSocketHandler × List (List Nat)
  | [] => (h, [])
  | c :: cs =>
    let r := pumpAvail h (c.length + 1) c
    let r2 := pumpChunks r.1 cs
    (r2.1, r.2.2 ++ r2.2)

/-! ## TCPConnecter

Embedded from `TCPConnecter` in tcp.h: the `Status` enumeration, the `killed`
flag, the resolved candidate list `addresses`, the index `current_address` of
the next candidate to try, and the pending `sockets`.  A socket is identified
by the index of the candidate it is connecting toward (the header's
`sock_to_address` map).  `attempts` and `closed_sockets` record, for the
statements below, which candidates were started and which sockets were closed.
The behaviour of the member functions is modelled from spec.md section 4.1. -/

inductive Status
  | Init
  | Resolving
  | Failure
  | Connecting
  | Connected
deriving DecidableEq, Repr

structure TCPConnecter where
  status : Status := Status.Init
  killed : Bool := false
  resolve_result : Option (List Nat) := none
  addresses : List Nat := []
  current_address : Nat := 0
  sockets : List Nat := []
  attempts : List Nat := []
  closed_sockets : List Nat := []
  winner : Option Nat := none
deriving DecidableEq, Repr

/-- The callbacks a connecter can deliver to its derived class. -/
inductive Callback
  | onConnect (s : Nat)
  | onFailure
deriving DecidableEq, Repr

/-- The readiness state one poll observes for a pending socket. -/
inductive SockPoll
  | connected
  | failed
  | pending
deriving DecidableEq, Repr

/-- The first pending socket the readiness check reports as connected. -/
def firstConnected (socks : List Nat) (res : Nat → SockPoll) : Option Nat :=
  socks.find? (fun s => res s == SockPoll.connected)

namespace TCPConnecter

/-- Embedded from tcp.h line 130: `virtual void OnConnect(SOCKET s) {}` — the
base-class success callback has an empty body. -/
def OnConnect (c : TCPConnecter) (_s : Nat) : TCPConnecter := c

/-- Embedded from tcp.h line 135: `virtual void OnFailure() {}` — the
base-class failure callback has an empty body. -/
def OnFailure (c : TCPConnecter) : TCPConnecter := c

/-- Modelled from the spec: "Kill: marks the instance as killed; subsequent
polls are no-ops; any in-flight resolution task is detached (its result, if it
ever arrives, is discarded)" (spec.md section 4.1). -/
def Kill (c : TCPConnecter) : TCPConnecter := { c with killed := true }

/-- Modelled from the spec: one poll of a connecter from the main context
(spec.md sections 4.1 and 5).  A killed connecter only has its sockets closed.
Init launches resolution.  Resolving picks up the atomically published
resolution result: no addresses means Failure (with its callback), otherwise
Connecting begins and the first candidate is attempted.  Connecting checks
every pending socket: on a success the winner is captured, every other pending
socket is closed, and the success callback fires; failed sockets are closed;
when no attempt remains or the attempt timed out, the next candidate in
resolver order is opened; when no candidate remains and no attempt is pending,
Failure is reached and its callback fires.  Terminal states do not change. -/
def CheckActivity (c : TCPConnecter) (res : Nat → SockPoll) (timeout : Bool) :
    TCPConnecter × List Callback :=
  if c.killed then
    ({ c with sockets := [], closed_sockets := c.closed_sockets ++ c.sockets }, [])
  else
    match c.status with
    | Status.Init => ({ c with status := Status.Resolving }, [])
    | Status.Resolving =>
      match c.resolve_result with
      | none => (c, [])
      | some [] =>
        ({ c with status := Status.Failure, resolve_result := none }, [Callback.onFailure])
      | some (a :: as) =>
        ({ c with status := Status.Connecting, resolve_result := none,
                  addresses := a :: as, current_address := 1, sockets := [0],
                  attempts := [a] }, [])
    | Status.Failure => (c, [])
    | Status.Connected => (c, [])
    | Status.Connecting =>
      match firstConnected c.sockets res with
      | some w =>
        ({ c with status := Status.Connected, winner := some w, sockets := [],
                  closed_sockets :=
                    c.closed_sockets ++ c.sockets.filter (fun s => s != w) },
         [Callback.onConnect w])
      | none =>
        let alive := c.sockets.filter (fun s => res s != SockPoll.failed)
        let c1 := { c with sockets := alive,
                           closed_sockets :=
                             c.closed_sockets ++
                               c.sockets.filter (fun s => res s == SockPoll.failed) }
        if alive.isEmpty || timeout then
          if c.current_address < c.addresses.length then
            ({ c1 with sockets := alive ++ [c.current_address],
                       attempts :=
                         c.attempts ++ [c.addresses.getD c.current_address 0],
                       current_address := c.current_address + 1 }, [])
          else if alive.isEmpty then
            ({ c1 with status := Status.Failure }, [Callback.onFailure])
          else (c1, [])
        else (c1, [])

/-- Modelled from the spec: the connecter produced by `Create`: constructed,
with its resolution task already launched ("begins resolution asynchronously",
spec.md section 4.1); the result arrives later as a `resolved` event. -/
def created : TCPConnecter := { status := Status.Resolving }

/-- Modelled from the spec: "Create(args...): constructs and retains the
instance; begins resolution asynchronously; returns a stable handle"
(spec.md section 4.1), embedding tcp.h lines 148 to 152: the new instance is
appended to the process-wide `connecters` registry.  Returns the new registry
and the index of the new instance as its handle. -/
def Create (reg : List TCPConnecter) : List TCPConnecter × Nat :=
  (reg ++ [created], reg.length)

end TCPConnecter

/-- The events that drive a connecter: the background resolution task
publishing its result, one main-context poll, and a kill request. -/
inductive Ev
  | resolved (addrs : List Nat)
  | poll (res : Nat → SockPoll) (timeout : Bool)
  | kill

/-- Modelled from the spec: one event applied to a connecter.  The background
task only publishes its result for the main context to pick up on its next
poll (spec.md section 5); a killed connecter discards a late resolution
result (spec.md section 4.1, Kill). -/
def step (c : TCPConnecter) : Ev → TCPConnecter × List Callback
  | Ev.resolved addrs =>
    if c.killed then (c, []) else ({ c with resolve_result := some addrs }, [])
  | Ev.poll res timeout => c.CheckActivity res timeout
  | Ev.kill => (c.Kill, [])

/-- Run a sequence of events, collecting every callback delivered. -/
def run (c : TCPConnecter) : List Ev → TCPConnecter × List Callback
  | [] => (c, [])
  | e :: es =>
    let r := step c e
    let r2 := run r.1 es
    (r2.1, r.2 ++ r2.2)

/-- Interpretation of a delivered callback by the base class: `onConnect`
dispatches to `TCPConnecter.OnConnect`, `onFailure` to
`TCPConnecter.OnFailure`. -/
def applyBase (c : TCPConnecter) : Callback → TCPConnecter
  | Callback.onConnect s => c.OnConnect s
  | Callback.onFailure => c.OnFailure

/-- A readiness oracle under which every pending socket has failed. -/
def failAll : Nat → SockPoll := fun _ => SockPoll.failed

/-- A readiness oracle under which the socket toward candidate `idx` connects
and every other socket fails. -/
def winAt (idx : Nat) : Nat → SockPoll :=
  fun s => if s = idx then SockPoll.connected else SockPoll.failed

/-- Terminal states of the connecter state machine (spec.md glossary):
Connected or Failure; no further transitions occur. -/
def Terminal (s : Status) : Prop := s = Status.Connected ∨ s = Status.Failure

/-- The connecter state while racing the candidate list: the socket toward
candidate `j` is pending, candidates `0..j` have been attempted, sockets
`0..j-1` have failed and been closed. -/
def midState (as : List Nat) (j : Nat) : TCPConnecter :=
  { status := Status.Connecting, addresses := as, current_address := j + 1,
    sockets := [j], attempts := as.take (j + 1), closed_sockets := List.range j }

/-! ## Theorems -/

/-- C7: Closing a handler with a non-empty outbound queue discards all queued
packets without signaling any error, `CloseSocket` is idempotent, and after
closing, `SendPacket` is a silent no-op while `SendPackets` reports
`SPS_CLOSED` and hands nothing to the transport. -/
theorem close_discards_queue_idempotent
    (h : NetworkTCPSocketHandler) (p : List Nat) (oracle : List SendResult) :
    (h.CloseSocket).packet_queue = [] ∧
    (h.CloseSocket).CloseSocket = h.CloseSocket ∧
    (h.CloseSocket).SendPacket p = h.CloseSocket ∧
    (h.CloseSocket).SendPackets oracle =
      (h.CloseSocket, SendPacketsState.SPS_CLOSED, []) := by
  refine ⟨rfl, rfl, ?_, ?_⟩ <;>
    simp [NetworkTCPSocketHandler.SendPacket, NetworkTCPSocketHandler.SendPackets,
      NetworkTCPSocketHandler.CloseSocket, NetworkTCPSocketHandler.EmptyPacketQueue]

/-- C10: The base-class callbacks `OnConnect` and `OnFailure` are no-ops:
invoking either (with any socket argument) leaves the connecter unchanged, so
replaying any delivered callback trace through the base class changes
nothing — a terminal outcome is silently dropped unless a derived class
overrides them. -/
theorem base_callbacks_are_noops
    (c : TCPConnecter) (s : Nat) (tr : List Callback) :
    c.OnConnect s = c ∧ c.OnFailure = c ∧ tr.foldl applyBase c = c := by
  refine ⟨rfl, rfl, ?_⟩
  induction tr with
  | nil => rfl
  | cons cb tr ih => cases cb <;> simpa [applyBase, TCPConnecter.OnConnect,
      TCPConnecter.OnFailure] using ih

/-- C9: `Create` appends the new connecter to the process-wide registry and
retains every existing entry at its old position, returns the new entry's
index as a stable handle, and the new connecter has its resolution begun
(status `Resolving`) but not yet completed (no published result), so the
handle is returned before any resolution outcome exists. -/
theorem create_registers_and_resolves (reg : List TCPConnecter) :
    (TCPConnecter.Create reg).1.length = reg.length + 1 ∧
    (TCPConnecter.Create reg).2 = reg.length ∧
    (TCPConnecter.Create reg).1[(TCPConnecter.Create reg).2]? =
      some TCPConnecter.created ∧
    (∀ i, i < reg.length → (TCPConnecter.Create reg).1[i]? = reg[i]?) ∧
    TCPConnecter.created.status = Status.Resolving ∧
    TCPConnecter.created.resolve_result = none := by
  refine ⟨by simp [TCPConnecter.Create], rfl, ?_, ?_, rfl, rfl⟩
  · simp [TCPConnecter.Create]
  · intro i hi
    simp [TCPConnecter.Create, List.getElem?_append_left hi]

/-- C9 witness: instantiation at the empty registry. -/
theorem create_registers_and_resolves_witness :
    ([TCPConnecter.created].length = 1 ∧
      [TCPConnecter.created][0]? = some TCPConnecter.created) := by
  have h := create_registers_and_resolves []
  exact ⟨h.1, h.2.2.1⟩

/-- Once the flush loop meets a transport error it stops: nothing after the
error in the oracle is ever consulted, so the failed operation is not
retried. -/
theorem sendLoop_error_irrel (pre : List SendResult) :
    ∀ (queue : List (List Nat)) (sh : Nat) (post post' : List SendResult),
    sendLoop queue sh (pre ++ SendResult.error :: post) =
      sendLoop queue sh (pre ++ SendResult.error :: post') := by
  induction pre with
  | nil => intro queue sh post post'; rfl
  | cons r pre ih =>
    intro queue sh post post'
    cases r with
    | error => rfl
    | wouldBlock => rfl
    | accepted n =>
      simp only [List.cons_append, sendLoop]
      rcases h : normQ queue sh with ⟨q, sh2⟩
      cases q with
      | nil => rfl
      | cons p rest =>
        simp only [List.append_eq]
        by_cases hn : (p.drop sh2).length ≤ n
        · rw [if_pos hn, if_pos hn, ih rest 0 post post']
        · rw [if_neg hn, if_neg hn]

/-- A resolution publication never changes the status and never emits a
callback. -/
theorem step_status_resolved (c : TCPConnecter) (addrs : List Nat) :
    (step c (Ev.resolved addrs)).1.status = c.status ∧ (step c (Ev.resolved addrs)).2 = [] := by
  simp only [step]; split <;> simp

/-- Terminal states are absorbing: no step out of Connected or Failure changes
the status or emits a callback. -/
theorem step_terminal (c : TCPConnecter) (e : Ev) (ht : Terminal c.status) :
    (step c e).1.status = c.status ∧ (step c e).2 = [] := by
  cases e with
  | resolved addrs => exact step_status_resolved c addrs
  | kill => exact ⟨rfl, rfl⟩
  | poll res t =>
    simp only [step, TCPConnecter.CheckActivity]
    by_cases hk : c.killed
    · simp [hk]
    · rcases ht with h | h <;> simp [hk, h]

/-- From a non-terminal state, one step either emits nothing and stays
non-terminal, or enters Connected emitting exactly one success callback, or
enters Failure emitting exactly one failure callback. -/
theorem step_nonterminal (c : TCPConnecter) (e : Ev) (hnt : ¬ Terminal c.status) :
    ((step c e).2 = [] ∧ ¬ Terminal (step c e).1.status) ∨
    ((step c e).1.status = Status.Connected ∧ ∃ w, (step c e).2 = [Callback.onConnect w]) ∨
    ((step c e).1.status = Status.Failure ∧ (step c e).2 = [Callback.onFailure]) := by
  cases e with
  | resolved addrs =>
    left
    refine ⟨(step_status_resolved c addrs).2, ?_⟩
    rw [(step_status_resolved c addrs).1]; exact hnt
  | kill => left; exact ⟨rfl, hnt⟩
  | poll res t =>
    simp only [step, TCPConnecter.CheckActivity]
    by_cases hk : c.killed
    · left
      constructor
      · simp [hk]
      · simpa [hk] using hnt
    · rcases hs : c.status with _ | _ | _ | _ | _
      · left; simp [hk, hs, Terminal]
      · rcases hr : c.resolve_result with _ | ⟨_ | ⟨a, as⟩⟩
        · left; simp [hk, hs, hr, Terminal]
        · right; right; simp [hk, hs, hr]
        · left; simp [hk, hs, hr, Terminal]
      · exact absurd (Or.inr hs) hnt
      · -- Connecting
        rcases hw : firstConnected c.sockets res with _ | w
        · simp only [hk, hs, hw]
          by_cases ha : (c.sockets.filter (fun s => res s != SockPoll.failed)).isEmpty
          · by_cases hcur : c.current_address < c.addresses.length
            · left; simp [ha, hcur, Terminal]
            · right; right; simp [ha, hcur]
          · by_cases ht2 : t
            · by_cases hcur : c.current_address < c.addresses.length
              · left; simp [ha, ht2, hcur, Terminal]
              · left; simp [ha, ht2, hcur, Terminal]
            · left; simp [ha, ht2, Terminal]
        · right; left; simp [hk, hs, hw]
      · exact absurd (Or.inl hs) hnt

/-- A run from a terminal state keeps the status and emits nothing. -/
theorem run_terminal (evs : List Ev) :
    ∀ (c : TCPConnecter), Terminal c.status →
    (run c evs).1.status = c.status ∧ (run c evs).2 = [] := by
  induction evs with
  | nil => intro c ht; exact ⟨rfl, rfl⟩
  | cons e es ih =>
    intro c ht
    have h1 := step_terminal c e ht
    have h2 := ih (step c e).1 (by rw [h1.1]; exact ht)
    simp only [run]
    exact ⟨by rw [h2.1, h1.1], by rw [h1.2, h2.2]; rfl⟩

/-- Trace invariant: a run from a non-terminal state either stays non-terminal
having emitted nothing, or ends Connected with exactly one success callback,
or ends Failure with exactly one failure callback. -/
theorem run_inv (evs : List Ev) :
    ∀ (c : TCPConnecter), ¬ Terminal c.status →
    ((run c evs).2 = [] ∧ ¬ Terminal (run c evs).1.status) ∨
    ((run c evs).1.status = Status.Connected ∧ ∃ w, (run c evs).2 = [Callback.onConnect w]) ∨
    ((run c evs).1.status = Status.Failure ∧ (run c evs).2 = [Callback.onFailure]) := by
  induction evs with
  | nil => intro c hnt; left; exact ⟨rfl, hnt⟩
  | cons e es ih =>
    intro c hnt
    simp only [run]
    rcases step_nonterminal c e hnt with ⟨h1, h2⟩ | ⟨h1, w, h2⟩ | ⟨h1, h2⟩
    · rcases ih (step c e).1 h2 with ⟨g1, g2⟩ | ⟨g1, w, g2⟩ | ⟨g1, g2⟩
      · left; exact ⟨by rw [h1, g1, List.append_nil], g2⟩
      · right; left; exact ⟨g1, w, by rw [h1, g2]; rfl⟩
      · right; right; exact ⟨g1, by rw [h1, g2]; rfl⟩
    · have g := run_terminal es (step c e).1 (Or.inl h1)
      right; left; exact ⟨by rw [g.1, h1], w, by rw [h2, g.2]; rfl⟩
    · have g := run_terminal es (step c e).1 (Or.inr h1)
      right; right; exact ⟨by rw [g.1, h1], by rw [h2, g.2]; rfl⟩

/-- A freshly created connecter is not terminal. -/
theorem created_not_terminal : ¬ Terminal TCPConnecter.created.status := by
  simp [TCPConnecter.created, Terminal]
/-- Running a concatenation of event lists composes states and traces. -/
theorem run_append (e1 : List Ev) :
    ∀ (e2 : List Ev) (c : TCPConnecter),
    run c (e1 ++ e2) =
      ((run (run c e1).1 e2).1, (run c e1).2 ++ (run (run c e1).1 e2).2) := by
  induction e1 with
  | nil => intro e2 c; simp [run]
  | cons e es ih =>
    intro e2 c
    simp only [List.cons_append, run, List.append_eq]
    rw [ih e2 (step c e).1, List.append_assoc]

/-- C1: Over any event sequence driving a connecter, at most one callback is
ever delivered; if the connecter is driven to a terminal status then exactly
the matching one of `onConnect`/`onFailure` was delivered, exactly once; and
any prefix of the run that has delivered a callback already has terminal
status, so a callback only happens after the status field reached a terminal
value. -/
theorem connecter_callback_exactly_once (evs : List Ev) :
    (run TCPConnecter.created evs).2.length ≤ 1 ∧
    ((run TCPConnecter.created evs).1.status = Status.Connected →
       ∃ w, (run TCPConnecter.created evs).2 = [Callback.onConnect w]) ∧
    ((run TCPConnecter.created evs).1.status = Status.Failure →
       (run TCPConnecter.created evs).2 = [Callback.onFailure]) ∧
    (¬ Terminal (run TCPConnecter.created evs).1.status →
       (run TCPConnecter.created evs).2 = []) ∧
    (∀ evs1 evs2, evs = evs1 ++ evs2 →
       (run TCPConnecter.created evs1).2 ≠ [] →
       Terminal (run TCPConnecter.created evs1).1.status) := by
  have hmain := run_inv evs TCPConnecter.created created_not_terminal
  refine ⟨?_, ?_, ?_, ?_, ?_⟩
  · rcases hmain with ⟨h1, _⟩ | ⟨_, w, h2⟩ | ⟨_, h2⟩
    · simp [h1]
    · simp [h2]
    · simp [h2]
  · intro hst
    rcases hmain with ⟨_, h2⟩ | ⟨_, w, h2⟩ | ⟨h1, _⟩
    · exact absurd (Or.inl hst) h2
    · exact ⟨w, h2⟩
    · rw [hst] at h1; cases h1
  · intro hst
    rcases hmain with ⟨_, h2⟩ | ⟨h1, _, _⟩ | ⟨_, h2⟩
    · exact absurd (Or.inr hst) h2
    · rw [hst] at h1; cases h1
    · exact h2
  · intro hnt
    rcases hmain with ⟨h1, _⟩ | ⟨h1, _, _⟩ | ⟨h1, _⟩
    · exact h1
    · exact absurd (Or.inl h1) hnt
    · exact absurd (Or.inr h1) hnt
  · intro evs1 evs2 _ hne
    rcases run_inv evs1 TCPConnecter.created created_not_terminal with
      ⟨h1, _⟩ | ⟨h1, _⟩ | ⟨h1, _⟩
    · exact absurd h1 hne
    · exact Or.inl h1
    · exact Or.inr h1

/-- C1 witness: a concrete run reaching Connected delivers exactly one
success callback. -/
theorem connecter_callback_exactly_once_witness :
    ∃ w, (run TCPConnecter.created
        [Ev.resolved [5], Ev.poll (winAt 0) false, Ev.poll (winAt 0) false]).2 =
      [Callback.onConnect w] :=
  (connecter_callback_exactly_once
    [Ev.resolved [5], Ev.poll (winAt 0) false, Ev.poll (winAt 0) false]).2.1 rfl

/-- A killed connecter never emits a callback, stays killed, and keeps its
status and published resolution result unchanged. -/
theorem run_killed (evs : List Ev) :
    ∀ (c : TCPConnecter), c.killed = true →
    (run c evs).2 = [] ∧ (run c evs).1.killed = true ∧
    (run c evs).1.status = c.status ∧
    (run c evs).1.resolve_result = c.resolve_result := by
  induction evs with
  | nil => intro c hk; exact ⟨rfl, hk, rfl, rfl⟩
  | cons e es ih =>
    intro c hk
    simp only [run]
    cases e with
    | resolved addrs =>
      have hstep : step c (Ev.resolved addrs) = (c, []) := by simp [step, hk]
      rw [hstep]
      simpa using ih c hk
    | poll res t =>
      have hstep : step c (Ev.poll res t) =
          ({ c with sockets := [], closed_sockets := c.closed_sockets ++ c.sockets }, []) := by
        simp [step, TCPConnecter.CheckActivity, hk]
      rw [hstep]
      exact ih _ hk
    | kill =>
      have hstep : step c Ev.kill = ({ c with killed := true }, []) := by
        simp [step, TCPConnecter.Kill]
      rw [hstep]
      simpa using ih _ rfl

/-- C6: If `Kill` arrives while the connecter is still resolving (no result
published yet), then no callback is ever delivered afterwards, even when the
background resolution later completes: the late result is discarded and the
connecter never reaches a terminal state. -/
theorem kill_before_resolution_no_callbacks
    (evs1 evs2 : List Ev)
    (hres : (run TCPConnecter.created evs1).1.resolve_result = none)
    (hst : (run TCPConnecter.created evs1).1.status = Status.Resolving ∨
           (run TCPConnecter.created evs1).1.status = Status.Init) :
    (run TCPConnecter.created (evs1 ++ Ev.kill :: evs2)).2 = [] ∧
    (run TCPConnecter.created (evs1 ++ Ev.kill :: evs2)).1.resolve_result = none ∧
    ¬ Terminal (run TCPConnecter.created (evs1 ++ Ev.kill :: evs2)).1.status := by
  have hnt1 : ¬ Terminal (run TCPConnecter.created evs1).1.status := by
    rcases hst with h | h <;> simp [Terminal, h]
  have htr1 : (run TCPConnecter.created evs1).2 = [] := by
    rcases run_inv evs1 TCPConnecter.created created_not_terminal with
      ⟨h1, _⟩ | ⟨h1, _⟩ | ⟨h1, _⟩
    · exact h1
    · exact absurd (Or.inl h1) hnt1
    · exact absurd (Or.inr h1) hnt1
  set c1 := (run TCPConnecter.created evs1).1 with hc1
  have happ := run_append evs1 (Ev.kill :: evs2) TCPConnecter.created
  have hkstep : step c1 Ev.kill = (c1.Kill, []) := rfl
  have hkilled : (c1.Kill).killed = true := rfl
  have hrest := run_killed evs2 c1.Kill hkilled
  have hrun2 : run c1 (Ev.kill :: evs2) =
      ((run c1.Kill evs2).1, [] ++ (run c1.Kill evs2).2) := by
    simp [run, hkstep]
  constructor
  · rw [happ, hrun2]
    simp [htr1, hrest.1]
  constructor
  · rw [happ, hrun2]
    simp only []
    rw [hrest.2.2.2]
    simpa [TCPConnecter.Kill] using hres
  · rw [happ, hrun2]
    simp only []
    rw [hrest.2.2.1]
    have : (c1.Kill).status = c1.status := rfl
    rw [this]
    exact hnt1

/-- C6 witness: killing immediately after creation, then letting resolution
complete and polling, delivers no callback. -/
theorem kill_before_resolution_no_callbacks_witness :
    (run TCPConnecter.created
      ([] ++ Ev.kill :: [Ev.resolved [3], Ev.poll failAll false])).2 = [] :=
  (kill_before_resolution_no_callbacks [] [Ev.resolved [3], Ev.poll failAll false]
    rfl (Or.inl rfl)).1

/-- While more candidates remain, a poll that sees the pending attempt fail
closes it and opens the next candidate in resolver order. -/
theorem step_fail_mid (as : List Nat) (j : Nat) (res : Nat → SockPoll)
    (hres : res j = SockPoll.failed) (h : j + 1 < as.length) :
    step (midState as j) (Ev.poll res false) = (midState as (j + 1), []) := by
  simp only [step, midState, TCPConnecter.CheckActivity, firstConnected]
  simp [hres, h, List.range_succ, List.take_succ, List.getD_eq_getElem?_getD,
    List.getElem?_eq_getElem (by omega : j + 1 < as.length)]

/-- When the pending attempt fails and no candidate remains, the connecter
reaches Failure and delivers the failure callback. -/
theorem step_fail_last (as : List Nat) (j : Nat) (res : Nat → SockPoll)
    (hres : res j = SockPoll.failed) (h : ¬ j + 1 < as.length) :
    step (midState as j) (Ev.poll res false) =
      ({ status := Status.Failure, addresses := as, current_address := j + 1,
         sockets := [], attempts := as.take (j + 1),
         closed_sockets := List.range (j + 1) }, [Callback.onFailure]) := by
  simp only [step, midState, TCPConnecter.CheckActivity, firstConnected]
  simp [hres, h, List.range_succ]

/-- A poll that sees the pending socket connected captures it as the winner,
closes every other pending socket, reaches Connected and delivers the success
callback. -/
theorem step_win (as : List Nat) (idx : Nat) :
    step (midState as idx) (Ev.poll (winAt idx) false) =
      ({ status := Status.Connected, addresses := as, current_address := idx + 1,
         sockets := [], attempts := as.take (idx + 1),
         closed_sockets := List.range idx, winner := some idx },
       [Callback.onConnect idx]) := by
  simp only [step, midState, TCPConnecter.CheckActivity, firstConnected]
  simp [winAt]

/-- One unfolding of `run`. -/
theorem run_cons (c : TCPConnecter) (e : Ev) (es : List Ev) :
    run c (e :: es) =
      ((run (step c e).1 es).1, (step c e).2 ++ (run (step c e).1 es).2) := rfl

/-- Racing loop, all candidates unreachable: from the middle state the
remaining polls try every remaining candidate in order, then reach Failure. -/
theorem fail_loop (m : Nat) :
    ∀ (as : List Nat) (j : Nat), j + 1 + m = as.length →
    run (midState as j) (List.replicate (m + 1) (Ev.poll failAll false)) =
      ({ status := Status.Failure, addresses := as, current_address := as.length,
         sockets := [], attempts := as,
         closed_sockets := List.range as.length }, [Callback.onFailure]) := by
  induction m with
  | zero =>
    intro as j hj
    have hj1 : j + 1 = as.length := by omega
    simp only [List.replicate, run]
    rw [step_fail_last as j failAll rfl (by omega)]
    simp [hj1, List.take_length]
  | succ m ih =>
    intro as j hj
    rw [List.replicate_succ]
    have hstep := step_fail_mid as j failAll rfl (by omega)
    rw [run_cons, hstep]
    dsimp only
    rw [ih as (j + 1) (by omega)]
    simp

/-- Racing loop, candidate `idx` reachable and all before it unreachable: the
polls fail candidates up to `idx`, then capture `idx` as the winner. -/
theorem win_loop (m : Nat) :
    ∀ (as : List Nat) (j idx : Nat), j + m = idx → idx < as.length →
    run (midState as j) (List.replicate (m + 1) (Ev.poll (winAt idx) false)) =
      ({ status := Status.Connected, addresses := as, current_address := idx + 1,
         sockets := [], attempts := as.take (idx + 1),
         closed_sockets := List.range idx, winner := some idx },
       [Callback.onConnect idx]) := by
  induction m with
  | zero =>
    intro as j idx hj hlt
    subst hj
    simp only [Nat.add_zero, List.replicate, run]
    rw [step_win as j]
    simp [run]
  | succ m ih =>
    intro as j idx hj hlt
    have hne : winAt idx j = SockPoll.failed := by
      simp [winAt]; omega
    rw [List.replicate_succ]
    have hstep := step_fail_mid as j (winAt idx) hne (by omega)
    rw [run_cons, hstep]
    dsimp only
    rw [ih as (j + 1) idx (by omega) hlt]
    simp

/-- The background resolution result is published without any other state
change. -/
theorem resolved_publish (xs : List Nat) :
    step TCPConnecter.created (Ev.resolved xs) =
      ({ status := Status.Resolving, resolve_result := some xs }, []) := rfl

/-- The first poll after a non-empty resolution result enters Connecting and
opens the attempt toward the first candidate. -/
theorem pickup_poll (a : Nat) (as : List Nat) (res : Nat → SockPoll) (t : Bool) :
    step ({ status := Status.Resolving, resolve_result := some (a :: as) } : TCPConnecter) (Ev.poll res t) = (midState (a :: as) 0, []) := by
  simp [step, TCPConnecter.CheckActivity, midState]

/-- C4: With candidates `a :: as` resolved and every attempt unreachable, the
connecter attempts every candidate, each exactly once, strictly in resolver
order (`attempts = a :: as`), closes every socket, and only then reaches
Failure, delivering the failure callback once. -/
theorem connecter_tries_all_candidates_in_order (a : Nat) (as : List Nat) :
    run TCPConnecter.created
        (Ev.resolved (a :: as) :: List.replicate (as.length + 2) (Ev.poll failAll false)) =
      ({ status := Status.Failure, addresses := a :: as,
         current_address := as.length + 1, sockets := [], attempts := a :: as,
         closed_sockets := List.range (as.length + 1) }, [Callback.onFailure]) := by
  rw [List.replicate_succ, run_cons, resolved_publish]
  dsimp only
  rw [run_cons, pickup_poll]
  dsimp only
  rw [fail_loop as.length (a :: as) 0 (by simp only [List.length_cons]; omega)]
  simp

/-- C5: When candidate `k` (1-indexed) is the first reachable candidate, the
connecter fails candidates `1..k-1`, closing each of their sockets, and the
success callback is delivered exactly once with the socket that connected to
candidate `k`; only the winning socket survives (`sockets = []`,
`closed_sockets` lists every loser, `winner` holds the `k`-th socket). -/
theorem connecter_first_reachable_wins (as : List Nat) (k : Nat)
    (hk1 : 1 ≤ k) (hk2 : k ≤ as.length) :
    run TCPConnecter.created
        (Ev.resolved as :: List.replicate (k + 1) (Ev.poll (winAt (k - 1)) false)) =
      ({ status := Status.Connected, addresses := as, current_address := k,
         sockets := [], attempts := as.take k,
         closed_sockets := List.range (k - 1), winner := some (k - 1) },
       [Callback.onConnect (k - 1)]) := by
  obtain ⟨k2, rfl⟩ : ∃ k2, k = k2 + 1 := ⟨k - 1, by omega⟩
  rcases as with _ | ⟨a, as⟩
  · simp only [List.length_nil] at hk2; omega
  · simp only [Nat.add_sub_cancel]
    rw [List.replicate_succ, run_cons, resolved_publish]
    dsimp only
    rw [run_cons, pickup_poll]
    dsimp only
    rw [win_loop k2 (a :: as) 0 k2 (by omega)
      (by simp only [List.length_cons] at hk2 ⊢; omega)]
    simp

/-- C5 witness: among three candidates with the second reachable, the second
socket wins, the first is closed, and one success callback is delivered. -/
theorem connecter_first_reachable_wins_witness :
    run TCPConnecter.created
        (Ev.resolved [10, 20, 30] :: List.replicate 3 (Ev.poll (winAt 1) false)) =
      ({ status := Status.Connected, addresses := [10, 20, 30],
         current_address := 2, sockets := [], attempts := [10, 20],
         closed_sockets := [0], winner := some 1 },
       [Callback.onConnect 1]) :=
  connecter_first_reachable_wins [10, 20, 30] 2 (by decide) (by decide)

/-- With a zero cursor the pending bytes are the whole queue flattened. -/
theorem headPending_zero (l : List (List Nat)) : headPending l 0 = l.flatten := by
  cases l with
  | nil => rfl
  | cons p rest => simp [headPending]

/-- Normalizing the queue does not change the pending byte stream. -/
theorem normQ_headPending : ∀ (q : List (List Nat)) (sh : Nat),
    headPending (normQ q sh).1 (normQ q sh).2 = headPending q sh := by
  intro q
  induction q with
  | nil => intro sh; rfl
  | cons p rest ih =>
    intro sh
    by_cases hp : p.length ≤ sh
    · have hdrop : p.drop sh = [] := List.drop_eq_nil_of_le hp
      simp only [normQ, hp, if_pos]
      rw [ih 0, headPending_zero]
      simp [headPending, hdrop]
    · simp [normQ, hp]

/-- Normalization reaches position `k` in the original queue: the packets
before `k` have no pending bytes, and the pending bytes of any longer front
segment start with the normalized front packet beyond its cursor. -/
theorem normQ_take_split : ∀ (q : List (List Nat)) (sh : Nat) (p : List Nat)
    (rest : List (List Nat)) (sh2 : Nat), normQ q sh = (p :: rest, sh2) →
    ∃ k, k ≤ q.length ∧ q.drop k = p :: rest ∧
      headPending (q.take k) sh = [] ∧
      (∀ w, headPending (q.take (k + 1 + w)) sh =
        p.drop sh2 ++ (rest.take w).flatten) := by
  intro q
  induction q with
  | nil => intro sh p rest sh2 h; simp [normQ] at h
  | cons p0 rest0 ih =>
    intro sh p rest sh2 h
    by_cases hp : p0.length ≤ sh
    · have hdrop : p0.drop sh = [] := List.drop_eq_nil_of_le hp
      rw [show normQ (p0 :: rest0) sh = normQ rest0 0 by simp [normQ, hp]] at h
      obtain ⟨k, hk1, hk2, hk3, hk4⟩ := ih 0 p rest sh2 h
      refine ⟨k + 1, by simpa using hk1, by simpa using hk2, ?_, ?_⟩
      · rw [headPending_zero] at hk3
        simp [headPending, hdrop, hk3]
      · intro w
        have hthis := hk4 w
        rw [headPending_zero] at hthis
        rw [show k + 1 + 1 + w = (k + 1 + w) + 1 by omega, List.take_succ_cons]
        simp [headPending, hdrop, hthis]
    · rw [show normQ (p0 :: rest0) sh = (p0 :: rest0, sh) by simp [normQ, hp]] at h
      injection h with h1 h2
      injection h1 with h3 h4
      subst h3; subst h4; subst h2
      refine ⟨0, Nat.zero_le _, rfl, rfl, ?_⟩
      intro w
      rw [show 0 + 1 + w = w + 1 by omega, List.take_succ_cons]
      simp [headPending]

/-- The cursor of a normalized non-empty queue lies strictly inside its front
packet. -/
theorem normQ_head_lt : ∀ (q : List (List Nat)) (sh : Nat) (p : List Nat)
    (rest : List (List Nat)), (normQ q sh).1 = p :: rest → (normQ q sh).2 < p.length := by
  intro q
  induction q with
  | nil => intro sh p rest h; simp [normQ] at h
  | cons p0 rest0 ih =>
    intro sh p rest h
    by_cases hp : p0.length ≤ sh
    · have hnq : normQ (p0 :: rest0) sh = normQ rest0 0 := by simp [normQ, hp]
      rw [hnq] at h ⊢
      exact ih 0 p rest h
    · have hnq : normQ (p0 :: rest0) sh = (p0 :: rest0, sh) := by simp [normQ, hp]
      rw [hnq] at h ⊢
      injection h with h1 h2
      subst h1
      omega
/-- Correctness of the flush loop on an error-free oracle: no error is
reported; the remaining queue is a suffix of the original (packets are removed
only from the front, in FIFO order) and the bytes of every removed packet
appear, in order, at the front of the transmitted trace; the transmitted trace
followed by the remaining pending bytes is exactly the original pending byte
stream; and the new cursor lies strictly inside the new front packet. -/
theorem sendLoop_spec : ∀ (oracle : List SendResult) (queue : List (List Nat)) (sh : Nat),
    SendResult.error ∉ oracle →
    (sendLoop queue sh oracle).2.2.1 = false ∧
    (∃ k, k ≤ queue.length ∧
      (sendLoop queue sh oracle).1 = queue.drop k ∧
      ∃ t, headPending (queue.take k) sh ++ t = (sendLoop queue sh oracle).2.2.2) ∧
    ((sendLoop queue sh oracle).2.2.2 ++
        headPending (sendLoop queue sh oracle).1 (sendLoop queue sh oracle).2.1 =
      headPending queue sh) ∧
    (∀ p rest, (sendLoop queue sh oracle).1 = p :: rest →
      (sendLoop queue sh oracle).2.1 < p.length) := by
  intro oracle
  induction oracle with
  | nil =>
    intro q sh _
    refine ⟨rfl, ?_, ?_, ?_⟩
    · rcases hq : normQ q sh with ⟨q1, sh2⟩
      cases q1 with
      | nil =>
        refine ⟨q.length, le_refl _, ?_, [], ?_⟩
        · simp only [sendLoop, hq, List.drop_length]
        · have hp := normQ_headPending q sh
          rw [hq] at hp
          simp only [sendLoop, hq, List.take_length, List.append_nil]
          rw [← hp]; rfl
      | cons p rest =>
        obtain ⟨k, hk1, hk2, hk3, _⟩ := normQ_take_split q sh p rest sh2 hq
        refine ⟨k, hk1, ?_, [], ?_⟩
        · simp only [sendLoop, hq, hk2]
        · simp [sendLoop, hk3]
    · simp only [sendLoop]
      rw [List.nil_append, normQ_headPending]
    · intro p rest hpr
      simp only [sendLoop] at hpr ⊢
      exact normQ_head_lt q sh p rest hpr
  | cons r os ih =>
    intro q sh herr
    have herr2 : SendResult.error ∉ os := fun hm => herr (List.mem_cons_of_mem r hm)
    cases r with
    | error => exact absurd (List.mem_cons_self _ _) herr
    | wouldBlock =>
      refine ⟨?_, ?_, ?_, ?_⟩
      · rcases hq : normQ q sh with ⟨q1, sh2⟩
        cases q1 with
        | nil => simp [sendLoop, hq]
        | cons p rest => simp [sendLoop, hq]
      · rcases hq : normQ q sh with ⟨q1, sh2⟩
        cases q1 with
        | nil =>
          refine ⟨q.length, le_refl _, ?_, [], ?_⟩
          · simp only [sendLoop, hq, List.drop_length]
          · have hp := normQ_headPending q sh
            rw [hq] at hp
            simp only [sendLoop, hq, List.take_length, List.append_nil]
            rw [← hp]; rfl
        | cons p rest =>
          obtain ⟨k, hk1, hk2, hk3, _⟩ := normQ_take_split q sh p rest sh2 hq
          refine ⟨k, hk1, ?_, [], ?_⟩
          · simp only [sendLoop, hq, hk2]
          · simp [sendLoop, hk3]
      · simp only [sendLoop]
        rw [List.nil_append, normQ_headPending]
      · intro p rest hpr
        simp only [sendLoop] at hpr ⊢
        exact normQ_head_lt q sh p rest hpr
    | accepted n =>
      rcases hq : normQ q sh with ⟨q1, sh2⟩
      cases q1 with
      | nil =>
        have hp := normQ_headPending q sh
        rw [hq] at hp
        refine ⟨?_, ⟨q.length, le_refl _, ?_, [], ?_⟩, ?_, ?_⟩
        · simp [sendLoop, hq]
        · simp [sendLoop, hq, List.drop_length]
        · simp only [sendLoop, hq, List.take_length, List.append_nil]
          rw [← hp]; rfl
        · simp only [sendLoop, hq]
          rw [← hp]; rfl
        · intro p rest hpr
          simp [sendLoop, hq] at hpr
      | cons p rest =>
        have hlt : sh2 < p.length := by
          have := normQ_head_lt q sh p rest (by rw [hq])
          rwa [hq] at this
        have hpend : headPending (p :: rest) sh2 = headPending q sh := by
          have hp := normQ_headPending q sh
          rwa [hq] at hp
        obtain ⟨k0, hk0len, hk0drop, hk0nil, hk0take⟩ :=
          normQ_take_split q sh p rest sh2 hq
        have hrestdrop : ∀ k2, q.drop (k0 + 1 + k2) = rest.drop k2 := by
          intro k2
          have h1 : q.drop (k0 + 1) = rest := by
            have h2 : (q.drop k0).drop 1 = rest := by rw [hk0drop]; rfl
            rwa [List.drop_drop] at h2
          rw [← h1, List.drop_drop]
        have hlen : q.length = k0 + 1 + rest.length := by
          have : (q.drop k0).length = q.length - k0 := List.length_drop k0 q
          rw [hk0drop] at this
          simp at this
          omega
        by_cases hn : (p.drop sh2).length ≤ n
        · obtain ⟨ih1, ⟨k2, hk2len, hk2drop, t2, ht2⟩, ih3, ih4⟩ := ih rest 0 herr2
          refine ⟨?_, ⟨k0 + 1 + k2, by omega, ?_, t2, ?_⟩, ?_, ?_⟩
          · simp only [sendLoop, hq]
            rw [if_pos hn]
            simpa using ih1
          · simp only [sendLoop, hq]
            rw [if_pos hn]
            rw [hrestdrop k2]
            exact hk2drop
          · simp only [sendLoop, hq]
            rw [if_pos hn]
            rw [hk0take k2, headPending_zero] at *
            rw [List.append_assoc, ht2]
          · simp only [sendLoop, hq]
            rw [if_pos hn]
            rw [List.append_assoc, ih3, headPending_zero]
            rw [← hpend]
            rfl
          · intro p2 rest2 hpr
            simp only [sendLoop, hq] at hpr ⊢
            rw [if_pos hn] at hpr ⊢
            exact ih4 p2 rest2 hpr
        · refine ⟨?_, ⟨k0, hk0len, ?_, ?_⟩, ?_, ?_⟩
          · simp only [sendLoop, hq]
            rw [if_neg hn]
          · simp only [sendLoop, hq]
            rw [if_neg hn]
            exact hk0drop.symm
          · refine ⟨(p.drop sh2).take n, ?_⟩
            simp only [sendLoop, hq]
            rw [if_neg hn, hk0nil]
            rfl
          · simp only [sendLoop, hq]
            rw [if_neg hn]
            have hdd : p.drop (sh2 + n) = (p.drop sh2).drop n :=
              (List.drop_drop n sh2 p).symm
            show (p.drop sh2).take n ++ (p.drop (sh2 + n) ++ rest.flatten) =
              headPending q sh
            rw [hdd, ← List.append_assoc, List.take_append_drop]
            rw [← hpend]
            rfl
          · intro p2 rest2 hpr
            simp only [sendLoop, hq] at hpr ⊢
            rw [if_neg hn] at hpr ⊢
            injection hpr with hh1 hh2
            subst hh1
            have hpl : (p.drop sh2).length = p.length - sh2 := List.length_drop sh2 p
            show sh2 + n < p.length
            omega
/-- C2: `SendPacket` enqueues at the tail in FIFO order; on an error-free
transport `SendPackets` keeps the handler open, removes packets only from the
front of the queue and only after all of their bytes were handed to the
transport (the removed packets' bytes lead the transmitted trace, and the
trace followed by what is still pending equals the pending stream before the
call, so bytes go out in FIFO enqueue order with partial packets split across
calls); it reports `SPS_ALL_SENT` exactly when the queue has drained, and
while undelivered packets remain it reports `SPS_PARTLY_SENT` (or
`SPS_NONE_SENT` when the transport accepted nothing). -/
theorem sendpackets_fifo_order (h : NetworkTCPSocketHandler) (oracle : List SendResult)
    (hc : h.connected = true) (herr : SendResult.error ∉ oracle) :
    (∀ (g : NetworkTCPSocketHandler) (p : List Nat), g.connected = true →
        (g.SendPacket p).packet_queue = g.packet_queue ++ [p]) ∧
    (h.SendPackets oracle).1.connected = true ∧
    (∃ k, k ≤ h.packet_queue.length ∧
       (h.SendPackets oracle).1.packet_queue = h.packet_queue.drop k ∧
       ∃ t, headPending (h.packet_queue.take k) h.sent_head ++ t =
         (h.SendPackets oracle).2.2) ∧
    ((h.SendPackets oracle).2.2 ++
        headPending (h.SendPackets oracle).1.packet_queue
          (h.SendPackets oracle).1.sent_head =
      headPending h.packet_queue h.sent_head) ∧
    (∀ p rest, (h.SendPackets oracle).1.packet_queue = p :: rest →
        (h.SendPackets oracle).1.sent_head < p.length) ∧
    ((h.SendPackets oracle).2.1 = SendPacketsState.SPS_ALL_SENT ↔
        (h.SendPackets oracle).1.packet_queue = []) ∧
    ((h.SendPackets oracle).1.packet_queue ≠ [] →
        (h.SendPackets oracle).2.1 =
          if (h.SendPackets oracle).2.2 = [] then SendPacketsState.SPS_NONE_SENT
          else SendPacketsState.SPS_PARTLY_SENT) := by
  obtain ⟨hflag, hdropk, hpend, hlt⟩ :=
    sendLoop_spec oracle h.packet_queue h.sent_head herr
  have hres : h.SendPackets oracle =
      ({ h with packet_queue := (sendLoop h.packet_queue h.sent_head oracle).1,
                sent_head := (sendLoop h.packet_queue h.sent_head oracle).2.1 },
       (if (sendLoop h.packet_queue h.sent_head oracle).1.isEmpty then
          SendPacketsState.SPS_ALL_SENT
        else if (sendLoop h.packet_queue h.sent_head oracle).2.2.2.isEmpty then
          SendPacketsState.SPS_NONE_SENT
        else SendPacketsState.SPS_PARTLY_SENT),
       (sendLoop h.packet_queue h.sent_head oracle).2.2.2) := by
    simp only [NetworkTCPSocketHandler.SendPackets, hc, hflag]
    simp
    by_cases h1 : (sendLoop h.packet_queue h.sent_head oracle).1 = []
    · simp [h1]
    · by_cases h2 : (sendLoop h.packet_queue h.sent_head oracle).2.2.2 = []
      · simp [h1, h2]
      · simp [h1, h2]
  rw [hres]
  refine ⟨?_, hc, hdropk, hpend, hlt, ?_, ?_⟩
  · intro g p hgc
    simp [NetworkTCPSocketHandler.SendPacket, hgc]
  · by_cases hqe : (sendLoop h.packet_queue h.sent_head oracle).1 = []
    · simp [hqe]
    · have : (sendLoop h.packet_queue h.sent_head oracle).1.isEmpty = false := by
        simpa [List.isEmpty_iff] using hqe
      rw [this]
      simp only [Bool.false_eq_true, if_false]
      by_cases hte : (sendLoop h.packet_queue h.sent_head oracle).2.2.2.isEmpty
      · simp [hte, hqe]
      · simp only [hte, Bool.false_eq_true, if_false]
        simp [hqe]
  · intro hne
    have h1 : (sendLoop h.packet_queue h.sent_head oracle).1.isEmpty = false := by
      simpa [List.isEmpty_iff] using hne
    rw [h1]
    simp only [Bool.false_eq_true, if_false]
    by_cases hte : (sendLoop h.packet_queue h.sent_head oracle).2.2.2 = []
    · simp [hte]
    · have h2 : (sendLoop h.packet_queue h.sent_head oracle).2.2.2.isEmpty = false := by
        simpa [List.isEmpty_iff] using hte
      rw [h2]
      simp [hte]

/-- C2 witness: two queued packets, transport accepts two bytes: the trace
plus the remaining pending bytes reconstruct the pending stream. -/
theorem sendpackets_fifo_order_witness :
    (({ packet_queue := [[1, 2, 3], [4, 5]] } : NetworkTCPSocketHandler).SendPackets
        [SendResult.accepted 2]).2.2 ++
      headPending
        (({ packet_queue := [[1, 2, 3], [4, 5]] } : NetworkTCPSocketHandler).SendPackets
            [SendResult.accepted 2]).1.packet_queue
        (({ packet_queue := [[1, 2, 3], [4, 5]] } : NetworkTCPSocketHandler).SendPackets
            [SendResult.accepted 2]).1.sent_head =
      headPending [[1, 2, 3], [4, 5]] 0 :=
  (sendpackets_fifo_order _ _ rfl (by decide)).2.2.2.1

/-- An encoded packet occupies its payload plus the two header bytes. -/
theorem encodePacket_length (p : List Nat) : (encodePacket p).length = p.length + 2 := by
  simp [encodePacket]

/-- An encoded packet is never empty. -/
theorem encodePacket_ne_nil (p : List Nat) : encodePacket p ≠ [] := by
  simp [encodePacket]

/-- The header of a well-formed encoded packet declares its total length. -/
theorem encodePacket_declared (p : List Nat) (hwf : wfPacket p) :
    declaredLen (encodePacket p) = some (p.length + 2) := by
  unfold wfPacket at hwf
  have hdiv : (p.length + 2) / 256 % 256 = (p.length + 2) / 256 :=
    Nat.mod_eq_of_lt ((Nat.div_lt_iff_lt_mul (by norm_num)).2 (by omega))
  simp only [encodePacket, declaredLen, hdiv]
  rw [Nat.mod_add_div]

/-- A fully received well-formed packet satisfies its declared length. -/
theorem encodePacket_complete (p : List Nat) (hwf : wfPacket p) :
    packetComplete (encodePacket p) = true := by
  simp [packetComplete, encodePacket_declared p hwf, encodePacket_length]

/-- A strict prefix of a well-formed encoded packet never satisfies the
declared length. -/
theorem strictPre_not_complete (buf t p : List Nat) (hwf : wfPacket p)
    (happ : buf ++ t = encodePacket p) (hne : t ≠ []) :
    packetComplete buf = false := by
  match buf with
  | [] => rfl
  | [b0] => rfl
  | b0 :: b1 :: rest =>
    have hd : declaredLen (b0 :: b1 :: rest) = some (b0 + 256 * b1) := rfl
    have hfull : declaredLen (encodePacket p) = some (b0 + 256 * b1) := by
      rw [← happ]
      rfl
    rw [encodePacket_declared p hwf] at hfull
    injection hfull with hval
    have hlen : (b0 :: b1 :: rest).length + t.length = p.length + 2 := by
      have hl := congrArg List.length happ
      rwa [List.length_append, encodePacket_length] at hl
    have htlen : 0 < t.length := List.length_pos.2 hne
    simp only [packetComplete, hd]
    rw [beq_eq_false_iff_ne]
    simp only [List.length_cons] at hlen ⊢
    omega

/-- When the buffer plus the whole chunk is still a strict prefix of the
current packet, assembly consumes the chunk and returns null. -/
theorem recvConsume_not_complete : ∀ (chunk buf t p : List Nat), wfPacket p →
    (buf ++ chunk) ++ t = encodePacket p → t ≠ [] →
    recvConsume buf chunk = (buf ++ chunk, [], none) := by
  intro chunk
  induction chunk with
  | nil =>
    intro buf t p hwf happ hne
    rw [recvConsume.eq_def]
    dsimp only
    rw [strictPre_not_complete buf t p hwf (by simpa using happ) hne]
    simp
  | cons b rest ih =>
    intro buf t p hwf happ hne
    rw [recvConsume.eq_def]
    dsimp only
    rw [strictPre_not_complete buf (b :: rest ++ t) p hwf (by simpa using happ) (by simp)]
    simp only [Bool.false_eq_true, if_false]
    have := ih (buf ++ [b]) t p hwf (by simpa using happ) hne
    rw [this]
    simp

/-- When the chunk supplies exactly the bytes missing from the current packet
(and possibly more), assembly returns that packet and the unread remainder. -/
theorem recvConsume_completes : ∀ (need buf extra p : List Nat), wfPacket p →
    buf ++ need = encodePacket p → need ≠ [] →
    recvConsume buf (need ++ extra) = ([], extra, some (encodePacket p)) := by
  intro need
  induction need with
  | nil => intro buf extra p _ _ hne; exact absurd rfl hne
  | cons b rest ih =>
    intro buf extra p hwf happ _
    rw [List.cons_append, recvConsume.eq_def]
    dsimp only
    rw [strictPre_not_complete buf (b :: rest) p hwf happ (by simp)]
    simp only [Bool.false_eq_true, if_false]
    cases rest with
    | nil =>
      have hbuf : buf ++ [b] = encodePacket p := by simpa using happ
      rw [List.nil_append, recvConsume.eq_def, hbuf]
      dsimp only
      rw [encodePacket_complete p hwf]
      simp
    | cons r rest2 =>
      have := ih (buf ++ [b]) extra p hwf (by simpa using happ) (by simp)
      rw [this]

/-- Assembly only ever hands over a packet whose declared length is
satisfied. -/
theorem recvConsume_some_complete : ∀ (chunk buf b r : List Nat) (p : List Nat),
    recvConsume buf chunk = (b, r, some p) → packetComplete p = true := by
  intro chunk
  induction chunk with
  | nil =>
    intro buf b r p h
    rw [recvConsume.eq_def] at h; dsimp only at h
    by_cases hcp : packetComplete buf
    · rw [if_pos hcp] at h
      injection h with h1 h2
      injection h2 with h3 h4
      injection h4 with h5
      rw [← h5]
      exact hcp
    · rw [if_neg hcp] at h
      injection h with h1 h2
      injection h2 with h3 h4
      cases h4
  | cons c rest ih =>
    intro buf b r p h
    rw [recvConsume.eq_def] at h; dsimp only at h
    by_cases hcp : packetComplete buf
    · rw [if_pos hcp] at h
      injection h with h1 h2
      injection h2 with h3 h4
      injection h4 with h5
      rw [← h5]
      exact hcp
    · rw [if_neg hcp] at h
      exact ih (buf ++ [c]) b r p h
/-- The buffer is a strict (incomplete) prefix of the encoding of `p`. -/
def strictPre (buf p : List Nat) : Prop :=
  ∃ t, t ≠ [] ∧ buf ++ t = encodePacket p

/-- The empty buffer is a strict prefix of any encoded packet. -/
theorem strictPre_nil (p : List Nat) : strictPre [] p :=
  ⟨encodePacket p, encodePacket_ne_nil p, rfl⟩

/-- Pumping one chunk hands over exactly the packets the chunk completes, in
order, and leaves the strict-prefix remainder in the assembly buffer. -/
theorem pumpAvail_spec : ∀ (ps : List (List Nat)) (c buf2 nextp : List Nat)
    (h : NetworkTCPSocketHandler) (fuel : Nat),
    h.connected = true →
    (∀ p ∈ ps, wfPacket p) → wfPacket nextp →
    h.packet_recv ++ c = (ps.map encodePacket).flatten ++ buf2 →
    (∀ q qs, ps = q :: qs → strictPre h.packet_recv q) →
    strictPre buf2 nextp →
    c.length + 1 ≤ fuel →
    pumpAvail h fuel c = ({ h with packet_recv := buf2 }, [], ps.map encodePacket) := by
  intro ps
  induction ps with
  | nil =>
    intro c buf2 nextp h fuel hc hwf hwfn hstream _ hsp hfuel
    obtain ⟨t, htne, htp⟩ := hsp
    simp only [List.map_nil, List.flatten_nil, List.nil_append] at hstream
    obtain ⟨f, rfl⟩ : ∃ f, fuel = f + 1 := ⟨fuel - 1, by omega⟩
    rw [pumpAvail]
    have hrc : recvConsume h.packet_recv c = (h.packet_recv ++ c, [], none) :=
      recvConsume_not_complete c h.packet_recv t nextp hwfn
        (by rw [hstream]; exact htp) htne
    simp only [NetworkTCPSocketHandler.ReceivePacket, hc, if_pos, hrc]
    simp [hstream]
  | cons q qs ih =>
    intro c buf2 nextp h fuel hc hwf hwfn hstream hsp hsp2 hfuel
    obtain ⟨t, htne, htp⟩ := hsp q qs rfl
    have hwfq : wfPacket q := hwf q (by simp)
    have hceq : c = t ++ ((qs.map encodePacket).flatten ++ buf2) := by
      have h2 : h.packet_recv ++ c =
          h.packet_recv ++ (t ++ ((qs.map encodePacket).flatten ++ buf2)) := by
        rw [hstream]
        rw [← List.append_assoc, htp]
        simp [List.append_assoc]
      exact List.append_cancel_left h2
    obtain ⟨f, rfl⟩ : ∃ f, fuel = f + 1 := ⟨fuel - 1, by omega⟩
    rw [pumpAvail]
    have hrc : recvConsume h.packet_recv c =
        ([], (qs.map encodePacket).flatten ++ buf2, some (encodePacket q)) := by
      rw [hceq]
      exact recvConsume_completes t h.packet_recv _ q hwfq htp htne
    simp only [NetworkTCPSocketHandler.ReceivePacket, hc, if_pos, hrc]
    have hrec := ih ((qs.map encodePacket).flatten ++ buf2) buf2 nextp
      { h with packet_recv := [] } f hc (fun p hp => hwf p (by simp [hp])) hwfn
      (by simp) (fun q2 qs2 _ => strictPre_nil q2) hsp2
    have hflen : ((qs.map encodePacket).flatten ++ buf2).length + 1 ≤ f := by
      have hc1 : c.length = t.length + ((qs.map encodePacket).flatten ++ buf2).length := by
        rw [hceq]; simp
      have ht1 : 0 < t.length := List.length_pos.2 htne
      omega
    simp only [hc] at hrec
    rw [hrec hflen]
    simp

/-- Any cut through a stream of encoded packets falls on a packet boundary
plus a strict prefix of the next packet. -/
theorem stream_split : ∀ (ps : List (List Nat)) (s t : List Nat),
    (∀ p ∈ ps, wfPacket p) →
    s ++ t = (ps.map encodePacket).flatten →
    ∃ ps1 ps2 buf2, ps = ps1 ++ ps2 ∧
      s = (ps1.map encodePacket).flatten ++ buf2 ∧
      ((ps2 = [] ∧ buf2 = []) ∨
       (∃ q qs, ps2 = q :: qs ∧ strictPre buf2 q)) := by
  intro ps
  induction ps with
  | nil =>
    intro s t _ hstream
    simp only [List.map_nil, List.flatten_nil, List.append_eq_nil] at hstream
    exact ⟨[], [], [], rfl, by simp [hstream.1], Or.inl ⟨rfl, rfl⟩⟩
  | cons q qs ih =>
    intro s t hwf hstream
    simp only [List.map_cons, List.flatten_cons] at hstream
    by_cases hlen : (encodePacket q).length ≤ s.length
    · have htake : s.take (encodePacket q).length = encodePacket q := by
        have h1 : (s ++ t).take (encodePacket q).length =
            s.take (encodePacket q).length :=
          List.take_append_of_le_length hlen
        rw [hstream] at h1
        rw [← h1, List.take_left]
      have hdrop : s.drop (encodePacket q).length ++ t =
          (qs.map encodePacket).flatten := by
        have h1 : (s ++ t).drop (encodePacket q).length =
            s.drop (encodePacket q).length ++ t :=
          List.drop_append_of_le_length hlen
        rw [hstream, List.drop_left] at h1
        exact h1.symm
      obtain ⟨ps1, ps2, buf2, hps, hs, hrest⟩ :=
        ih (s.drop (encodePacket q).length) t (fun p hp => hwf p (by simp [hp])) hdrop
      refine ⟨q :: ps1, ps2, buf2, by simp [hps], ?_, hrest⟩
      have : s = s.take (encodePacket q).length ++ s.drop (encodePacket q).length :=
        (List.take_append_drop _ s).symm
      rw [this, htake, hs]
      simp [List.append_assoc]
    · refine ⟨[], q :: qs, s, rfl, by simp, Or.inr ⟨q, qs, rfl, ?_⟩⟩
      refine ⟨(encodePacket q).drop s.length, ?_, ?_⟩
      · have : ((encodePacket q).drop s.length).length =
            (encodePacket q).length - s.length := List.length_drop _ _
        intro hnil
        rw [hnil] at this
        simp at this
        omega
      · have htake : s = (encodePacket q).take s.length := by
          have h1 : (s ++ t).take s.length = s := by
            rw [List.take_append_of_le_length (le_refl _), List.take_length]
          rw [hstream, List.take_append_of_le_length (by omega)] at h1
          exact h1.symm
        calc s ++ (encodePacket q).drop s.length
            = (encodePacket q).take s.length ++ (encodePacket q).drop s.length := by
              rw [← htake]
          _ = encodePacket q := List.take_append_drop _ _
/-- A strict prefix is strictly shorter than the packet encoding. -/
theorem strictPre_length (buf p : List Nat) (h : strictPre buf p) :
    buf.length < (encodePacket p).length := by
  obtain ⟨t, htne, htp⟩ := h
  have h1 := congrArg List.length htp
  rw [List.length_append] at h1
  have h2 : 0 < t.length := List.length_pos.2 htne
  omega

/-- Feeding a chunk sequence that exactly carries a packet stream hands over
exactly those packets and empties the assembly buffer. -/
theorem pumpChunks_spec : ∀ (chunks ps : List (List Nat))
    (h : NetworkTCPSocketHandler),
    h.connected = true →
    (∀ p ∈ ps, wfPacket p) →
    h.packet_recv ++ chunks.flatten = (ps.map encodePacket).flatten →
    (∀ q qs, ps = q :: qs → strictPre h.packet_recv q) →
    (ps = [] → h.packet_recv = []) →
    pumpChunks h chunks = ({ h with packet_recv := [] }, ps.map encodePacket) := by
  intro chunks
  induction chunks with
  | nil =>
    intro ps h hc hwf hstream hsp hnil
    have hps : ps = [] := by
      cases ps with
      | nil => rfl
      | cons q qs =>
        exfalso
        have h1 := strictPre_length h.packet_recv q (hsp q qs rfl)
        have h2 := congrArg List.length hstream
        simp only [List.flatten_nil, List.append_nil, List.map_cons,
          List.flatten_cons, List.length_append] at h2
        omega
    subst hps
    have hrecv : h.packet_recv = [] := hnil rfl
    rw [pumpChunks]
    have heta : ({ h with packet_recv := [] } : NetworkTCPSocketHandler) = h := by
      rw [← hrecv]
    rw [heta]
    simp
  | cons c cs ih =>
    intro ps h hc hwf hstream hsp hnil
    obtain ⟨ps1, ps2, buf2, hps, hs, hrest⟩ :=
      stream_split ps (h.packet_recv ++ c) cs.flatten hwf
        (by rw [List.append_assoc]; simpa using hstream)
    have hnextp : ∃ nextp, wfPacket nextp ∧ strictPre buf2 nextp ∧
        (∀ q2 qs2, ps2 = q2 :: qs2 → strictPre buf2 q2) ∧ (ps2 = [] → buf2 = []) := by
      rcases hrest with ⟨hps2, hbuf2⟩ | ⟨q2, qs2, hps2, hsp2⟩
      · refine ⟨[], by norm_num [wfPacket], by rw [hbuf2]; exact strictPre_nil [],
          ?_, fun _ => hbuf2⟩
        intro q2 qs2 hq
        rw [hps2] at hq
        cases hq
      · refine ⟨q2, ?_, hsp2, ?_, ?_⟩
        · exact hwf q2 (by rw [hps, hps2]; simp)
        · intro q3 qs3 hq
          rw [hps2] at hq
          injection hq with hq1 hq2
          rw [← hq1]
          exact hsp2
        · intro hq; rw [hps2] at hq; cases hq
    obtain ⟨nextp, hwfn, hspn, hsp2all, hps2nil⟩ := hnextp
    have hpump := pumpAvail_spec ps1 c buf2 nextp h (c.length + 1) hc
      (fun p hp => hwf p (by rw [hps]; simp [hp])) hwfn hs
      (fun q qs hq => hsp q (qs ++ ps2) (by rw [hps, hq]; rfl)) hspn (le_refl _)
    rw [pumpChunks, hpump]
    have hstream2 : buf2 ++ cs.flatten = (ps2.map encodePacket).flatten := by
      have h1 : (h.packet_recv ++ c) ++ cs.flatten =
          ((ps1.map encodePacket).flatten ++ (ps2.map encodePacket).flatten) := by
        rw [List.append_assoc]
        have : (ps.map encodePacket).flatten =
            (ps1.map encodePacket).flatten ++ (ps2.map encodePacket).flatten := by
          rw [hps]; simp
        rw [← this]
        simpa using hstream
      rw [hs, List.append_assoc] at h1
      exact List.append_cancel_left h1
    have hrec := ih ps2 { h with packet_recv := buf2 } hc
      (fun p hp => hwf p (by rw [hps]; simp [hp])) (by simpa using hstream2)
      (by intro q qs hq; exact hsp2all q qs hq) (by intro hq; exact hps2nil hq)
    rw [hrec]
    simp only [hps]
    simp

/-- C3: Feeding any stream of well-formed length-prefixed packets, split
arbitrarily into chunks across successive `ReceivePacket` calls, reconstructs
exactly the original packets at their original boundaries: the pump hands the
application precisely the original packet list, nothing remains in the
assembly buffer at the end, and every packet ever returned by a
`ReceivePacket` call satisfies its declared length (no partial packet is ever
handed over; calls that cannot complete a packet return null). -/
theorem receivepacket_reconstructs_stream (ps chunks : List (List Nat))
    (h : NetworkTCPSocketHandler) (hc : h.connected = true)
    (hr : h.packet_recv = []) (hwf : ∀ p ∈ ps, wfPacket p)
    (hstream : chunks.flatten = (ps.map encodePacket).flatten) :
    (pumpChunks h chunks).2 = ps.map encodePacket ∧
    (pumpChunks h chunks).1.packet_recv = [] ∧
    (∀ (g g2 : NetworkTCPSocketHandler) (bytes rest p : List Nat),
       g.ReceivePacket (RecvInput.avail bytes) = (g2, rest, RecvOutcome.packet p) →
       packetComplete p = true) := by
  have hmain := pumpChunks_spec chunks ps h hc hwf
    (by rw [hr]; simpa using hstream)
    (fun q qs hq => by rw [hr]; exact strictPre_nil q)
    (fun _ => hr)
  refine ⟨by rw [hmain], by rw [hmain], ?_⟩
  intro g g2 bytes rest p hcall
  by_cases hgc : g.connected
  · simp only [NetworkTCPSocketHandler.ReceivePacket, hgc, if_pos] at hcall
    rcases hrc : (recvConsume g.packet_recv bytes).2.2 with _ | p2
    · rw [hrc] at hcall
      simp at hcall
    · rw [hrc] at hcall
      simp only [Prod.mk.injEq] at hcall
      have hp2 : p2 = p := by
        have := hcall.2.2
        injection this with h5
      rw [← hp2]
      exact recvConsume_some_complete bytes g.packet_recv
        (recvConsume g.packet_recv bytes).1 (recvConsume g.packet_recv bytes).2.1 p2
        (by rw [← hrc])
  · simp only [Bool.not_eq_true] at hgc
    simp [NetworkTCPSocketHandler.ReceivePacket, hgc] at hcall

/-- C3 witness: a 10-byte packet delivered as 3+4+3 bytes across three calls
yields exactly that packet, with an empty assembly buffer remaining. -/
theorem receivepacket_reconstructs_stream_witness :
    (pumpChunks ({ } : NetworkTCPSocketHandler)
        [[10, 0, 9], [9, 9, 9, 9], [9, 9, 9]]).2 =
      [[10, 0, 9, 9, 9, 9, 9, 9, 9, 9]] :=
  (receivepacket_reconstructs_stream [[9, 9, 9, 9, 9, 9, 9, 9]]
    [[10, 0, 9], [9, 9, 9, 9], [9, 9, 9]] { } rfl rfl
    (by intro p hp; simp at hp; simp [hp, wfPacket]) (by decide)).1

/-- A queue with undelivered bytes stays non-empty after normalization. -/
theorem normQ_ne_nil_of_pending (q : List (List Nat)) (sh : Nat)
    (hpend : headPending q sh ≠ []) : (normQ q sh).1 ≠ [] := by
  intro h0
  apply hpend
  rw [← normQ_headPending q sh, h0]
  rfl

/-- Where the flush loop meets the error: either it already stopped inside the
error-free part of the oracle (wouldBlock, partial accept, or a drained
queue), leaving the same result, or it reaches the error entry with packets
still pending and then reports the error over the same queue, cursor and
trace. -/
theorem sendLoop_error_hit (pre : List SendResult) :
    ∀ (queue : List (List Nat)) (sh : Nat) (post : List SendResult),
    SendResult.error ∉ pre →
    sendLoop queue sh (pre ++ SendResult.error :: post) = sendLoop queue sh pre ∨
    (sendLoop queue sh (pre ++ SendResult.error :: post) =
       ((sendLoop queue sh pre).1, (sendLoop queue sh pre).2.1, true,
        (sendLoop queue sh pre).2.2.2) ∧
     (sendLoop queue sh pre).1 ≠ []) := by
  induction pre with
  | nil =>
    intro queue sh post _
    rcases hq : normQ queue sh with ⟨q1, sh2⟩
    cases q1 with
    | nil => left; simp [sendLoop, hq]
    | cons p rest =>
      right
      constructor
      · simp [sendLoop, hq]
      · simp [sendLoop, hq]
  | cons r pre ih =>
    intro queue sh post herr
    have herr2 : SendResult.error ∉ pre := fun hm => herr (List.mem_cons_of_mem r hm)
    cases r with
    | error => exact absurd (List.mem_cons_self _ _) herr
    | wouldBlock => left; rfl
    | accepted n =>
      simp only [List.cons_append, sendLoop]
      rcases hq : normQ queue sh with ⟨q1, sh2⟩
      cases q1 with
      | nil => left; rfl
      | cons p rest =>
        simp only [List.append_eq]
        by_cases hn : (p.drop sh2).length ≤ n
        · rw [if_pos hn, if_pos hn]
          rcases ih rest 0 post herr2 with h1 | ⟨h1, h2⟩
          · left; rw [h1]
          · right
            refine ⟨by rw [h1], ?_⟩
            simpa using h2
        · rw [if_neg hn, if_neg hn]
          left
          rfl

/-- C8: Any transport-level error during `SendPackets` or `ReceivePacket`
marks the handler closed and surfaces exactly one closed-connection signal.
For send: the call reports `SPS_CLOSED` exactly when the handler ends up
closed; nothing after the error in the transport oracle is ever consulted (no
retry of the failed operation); an error met with undelivered bytes pending
closes the handler (`CloseSocket`) and returns the single `SPS_CLOSED`; and
for an error anywhere in the oracle, either the flush already stopped inside
the error-free part (same result, error never reached), or packets were still
queued, the handler is closed, and `SPS_CLOSED` is returned with the bytes
sent so far.  For receive: a transport error closes the socket and yields
the single `closedSig`, and later receive calls on the closed handler yield
null rather than another signal. -/
theorem transport_error_closes_handler :
    (∀ (h : NetworkTCPSocketHandler) (oracle : List SendResult),
        (h.SendPackets oracle).2.1 = SendPacketsState.SPS_CLOSED ↔
          (h.SendPackets oracle).1.connected = false) ∧
    (∀ (h : NetworkTCPSocketHandler) (pre post post' : List SendResult),
        h.SendPackets (pre ++ SendResult.error :: post) =
          h.SendPackets (pre ++ SendResult.error :: post')) ∧
    (∀ (h : NetworkTCPSocketHandler) (post : List SendResult),
        h.connected = true →
        headPending h.packet_queue h.sent_head ≠ [] →
        h.SendPackets (SendResult.error :: post) =
          (h.CloseSocket, SendPacketsState.SPS_CLOSED, [])) ∧
    (∀ (h : NetworkTCPSocketHandler) (pre post : List SendResult),
        h.connected = true → SendResult.error ∉ pre →
        h.SendPackets (pre ++ SendResult.error :: post) = h.SendPackets pre ∨
        (h.SendPackets (pre ++ SendResult.error :: post) =
           (h.CloseSocket, SendPacketsState.SPS_CLOSED, (h.SendPackets pre).2.2) ∧
         (h.SendPackets pre).1.packet_queue ≠ [])) ∧
    (∀ (h : NetworkTCPSocketHandler) (input : RecvInput),
        (h.ReceivePacket input).2.2 = RecvOutcome.closedSig ↔
          (h.connected = true ∧ input = RecvInput.error)) ∧
    (∀ h : NetworkTCPSocketHandler, h.connected = true →
        (h.ReceivePacket RecvInput.error).1 = h.CloseSocket) ∧
    (∀ (h : NetworkTCPSocketHandler) (input : RecvInput), h.connected = false →
        h.ReceivePacket input = (h, [], RecvOutcome.nothingYet)) := by
  refine ⟨?_, ?_, ?_, ?_, ?_, ?_, ?_⟩
  · intro h oracle
    by_cases hc : h.connected
    · simp only [NetworkTCPSocketHandler.SendPackets, hc, if_pos]
      split
      · simp [NetworkTCPSocketHandler.CloseSocket, NetworkTCPSocketHandler.EmptyPacketQueue]
      · split
        · simp [hc]
        · split <;> simp [hc]
    · simp only [Bool.not_eq_true] at hc
      simp [NetworkTCPSocketHandler.SendPackets, hc]
  · intro h pre post post'
    have e := sendLoop_error_irrel pre h.packet_queue h.sent_head post post'
    simp only [NetworkTCPSocketHandler.SendPackets, e]
  · intro h post hc hpend
    have hne := normQ_ne_nil_of_pending h.packet_queue h.sent_head hpend
    have hie : (normQ h.packet_queue h.sent_head).1.isEmpty = false := by
      simpa [List.isEmpty_iff] using hne
    have hflag : (sendLoop h.packet_queue h.sent_head
        (SendResult.error :: post)).2.2.1 = true := by
      simp [sendLoop, hie]
    have htr : (sendLoop h.packet_queue h.sent_head
        (SendResult.error :: post)).2.2.2 = [] := by
      simp [sendLoop]
    simp [NetworkTCPSocketHandler.SendPackets, hc, hflag, htr]
  · intro h pre post hc herr
    have hflagpre : (sendLoop h.packet_queue h.sent_head pre).2.2.1 = false :=
      (sendLoop_spec pre h.packet_queue h.sent_head herr).1
    rcases sendLoop_error_hit pre h.packet_queue h.sent_head post herr with h1 | ⟨h1, h2⟩
    · left
      simp only [NetworkTCPSocketHandler.SendPackets, h1]
    · right
      have hie : (sendLoop h.packet_queue h.sent_head pre).1.isEmpty = false := by
        simpa [List.isEmpty_iff] using h2
      constructor
      · simp only [NetworkTCPSocketHandler.SendPackets, hc, if_pos, h1]
        simp [hflagpre]
        split
        · rfl
        · split <;> rfl
      · simp only [NetworkTCPSocketHandler.SendPackets, hc, if_pos, hflagpre]
        simp only [Bool.false_eq_true, if_false, hie]
        split <;> simpa using h2
  · intro h input
    by_cases hc : h.connected
    · cases input with
      | error => simp [NetworkTCPSocketHandler.ReceivePacket, hc]
      | avail bytes =>
        simp only [NetworkTCPSocketHandler.ReceivePacket, hc, if_pos]
        rcases hr : (recvConsume h.packet_recv bytes).2.2 with _ | p <;> simp [hr, hc]
    · simp only [Bool.not_eq_true] at hc
      cases input <;> simp [NetworkTCPSocketHandler.ReceivePacket, hc]
  · intro h hc
    simp [NetworkTCPSocketHandler.ReceivePacket, hc]
  · intro h input hc
    cases input <;> simp [NetworkTCPSocketHandler.ReceivePacket, hc]

/-- C8 witness: a send error on a connected handler with one queued packet
closes it and returns the single `SPS_CLOSED` with nothing sent; a receive
error on a fresh connected handler closes it; a receive on a closed handler
is a quiet null. -/
theorem transport_error_closes_handler_witness :
    ({ packet_queue := [[1, 2, 3]] } : NetworkTCPSocketHandler).SendPackets
        [SendResult.error] =
      (({ packet_queue := [[1, 2, 3]] } : NetworkTCPSocketHandler).CloseSocket,
       SendPacketsState.SPS_CLOSED, []) ∧
    (({ connected := true } : NetworkTCPSocketHandler).ReceivePacket RecvInput.error).1 =
      ({ connected := true } : NetworkTCPSocketHandler).CloseSocket ∧
    ({ connected := false } : NetworkTCPSocketHandler).ReceivePacket (RecvInput.avail [1]) =
      (({ connected := false } : NetworkTCPSocketHandler), [], RecvOutcome.nothingYet) :=
  ⟨transport_error_closes_handler.2.2.1 _ [] rfl (by decide),
   transport_error_closes_handler.2.2.2.2.2.1 _ rfl,
   transport_error_closes_handler.2.2.2.2.2.2 _ (RecvInput.avail [1]) rfl⟩

end OpenTTDNet
